import Mathlib

/-!
Verification of the py-cgraph expression-graph kernel
(`src/docs/01_Computational_Graphs-Symbolic_Computation.ipynb`).

The notebook builds expression graphs from four node classes (`Symbol`,
`Constant`, `Add`, `Mul`), evaluates them (`values` / `value`), computes
numeric and symbolic reverse-mode gradients (`numeric_gradient`,
`symbolic_gradient`) over a FIFO work queue (`bfs`), and simplifies graphs
with an ordered rewrite-rule list (`simplify` with `mul_identity_rule`,
`add_identity_rule`, `eval_to_const_rule`).

Embedding notes.
* Nodes are embedded as a tree type `Node α`.  Python `Symbol` objects
  compare by name (value equality), which structural equality reproduces
  exactly.  `Constant` and operator objects compare by object identity in
  Python; a tree conflates structurally equal but independently built
  objects.  This is invisible to every value computed here: `values`
  memoises a deterministic function of the subtree, and the `bfs` queue in
  both gradient routines has no visited set, so it traverses the tree
  unfolding of the graph edge by edge regardless of sharing.  Claims that
  are genuinely about object identity and in-place mutation (`simplify`'s
  `copy.copy` aliasing, rule chaining producing fresh `Constant` objects)
  are settled on an explicit heap model defined further below.
* Python numbers are duck-typed; the evaluator and the numeric gradient
  are therefore parameterised by the scalar type `α`.  General theorems are
  stated parametrically; concrete runs use `ℤ` (every literal in the
  notebook is an integer) and the propagation claim uses a
  not-a-number-carrying domain.
* A `KeyError` escaping a call is modelled as `Option.none`.
-/

/-- The node kinds of the notebook: `Symbol(name)`, `Constant(value)` and the
binary operators `Add`, `Mul`.  Children are the constructor arguments, as
fixed at construction time by the builders `sym_add` / `sym_mul`. -/
inductive Node (α : Type) : Type
  | Symbol (name : String)
  | Constant (value : α)
  | Add (a b : Node α)
  | Mul (a b : Node α)
deriving DecidableEq

variable {α : Type}

/-- `node.children` (the `children` list set up by `Node.__init__` and filled
by the builders; empty for the two leaf kinds). -/
def Node.children : Node α → List (Node α)
  | .Symbol _ => []
  | .Constant _ => []
  | .Add a b => [a, b]
  | .Mul a b => [a, b]

/-- Number of nodes in the tree unfolding; the termination measure for the
queue-based traversals. -/
def Node.size : Node α → Nat
  | .Symbol _ => 1
  | .Constant _ => 1
  | .Add a b => a.size + b.size + 1
  | .Mul a b => a.size + b.size + 1

/-- `postorder(node)`: depth-first post-order enumeration.  The Python
generator recurses into `node.children` and yields the node last; on a graph
with shared children it yields a node once per path (it keeps no visited
set), which is exactly the enumeration of the tree unfolding. -/
def postorder : Node α → List (Node α)
  | .Symbol s => [.Symbol s]
  | .Constant c => [.Constant c]
  | .Add a b => postorder a ++ postorder b ++ [.Add a b]
  | .Mul a b => postorder a ++ postorder b ++ [.Mul a b]

/-- First-match association-list lookup: the behaviour of a Python `dict`
(whose keys are unique, so the first match is the only one). -/
def dlookup {κ β : Type} [DecidableEq κ] : List (κ × β) → κ → Option β
  | [], _ => none
  | (k, v) :: rest, a => if k = a then some v else dlookup rest a

/-- `n.compute_value(values)` (the monkey-patched `compute_value` methods):
a `Symbol` looks itself up in the value dict (`KeyError` = `none` if
absent), a `Constant` returns its stored value, `Add`/`Mul` combine the
children's already computed entries. -/
def compute_value [DecidableEq α] [Add α] [Mul α]
    (n : Node α) (v : List (Node α × α)) : Option α :=
  match n with
  | .Symbol s => dlookup v (.Symbol s)
  | .Constant c => some c
  | .Add a b =>
    match dlookup v a, dlookup v b with
    | some x, some y => some (x + y)
    | _, _ => none
  | .Mul a b =>
    match dlookup v a, dlookup v b with
    | some x, some y => some (x * y)
    | _, _ => none

/-- The loop body of `values`: for each post-order node `n`, if `n` is not
yet a key of `v`, compute `v[n] = n.compute_value(v)`; a `KeyError` raised
by `compute_value` aborts the whole call. -/
def valuesAux [DecidableEq α] [Add α] [Mul α] :
    List (Node α × α) → List (Node α) → Option (List (Node α × α))
  | v, [] => some v
  | v, n :: rest =>
    if (dlookup v n).isSome then valuesAux v rest
    else
      match compute_value n v with
      | some k => valuesAux (v ++ [(n, k)]) rest
      | none => none

/-- `values(f, fargs)`: start from a fresh dict updated with the caller's
bindings (`v = {}; v.update(fargs)`, the bindings keyed by `Symbol` nodes,
i.e. by name) and fill it along `postorder f`. -/
def values [DecidableEq α] [Add α] [Mul α]
    (f : Node α) (fargs : List (String × α)) : Option (List (Node α × α)) :=
  valuesAux (fargs.map (fun p => (Node.Symbol p.1, p.2))) (postorder f)

/-- `value(f, fargs) = values(f, fargs)[f]` — the evaluator entry point the
spec calls `evaluate`. -/
def value [DecidableEq α] [Add α] [Mul α]
    (f : Node α) (fargs : List (String × α)) : Option α :=
  (values f fargs).bind (fun v => dlookup v f)

/-- Reference denotation used in the statements and proofs: the value of a
node as a direct recursion over the tree, failing exactly on an unbound
symbol.  The theorems below prove the dict-based `value` coincides with it. -/
def evalDen [Add α] [Mul α] (B : List (String × α)) : Node α → Option α
  | .Symbol s => dlookup B s
  | .Constant c => some c
  | .Add a b =>
    match evalDen B a, evalDen B b with
    | some x, some y => some (x + y)
    | _, _ => none
  | .Mul a b =>
    match evalDen B a, evalDen B b with
    | some x, some y => some (x * y)
    | _, _ => none

/-- Decidable form of "the bindings cover every reachable Symbol". -/
def allBound [DecidableEq α] (f : Node α) (B : List (String × α)) : Bool :=
  (postorder f).all (fun n =>
    match n with
    | .Symbol s => (dlookup B s).isSome
    | _ => true)

/-- `sym_add(x, y)`: builder allocating an `Add` node with the given
children (operand coercion is a no-op in the typed embedding). -/
def sym_add (a b : Node α) : Node α := .Add a b

/-- `sym_mul(x, y)`: builder allocating a `Mul` node. -/
def sym_mul (a b : Node α) : Node α := .Mul a b

/-- `n.compute_gradient(values)`: numeric local gradients, one per child.
`Symbol`/`Constant` have none; `Add` contributes `[1, 1]`; `Mul` looks up
the forward values of the sibling child (`[values[b], values[a]]`, a
`KeyError` = `none` if a child has no entry). -/
def compute_gradient [DecidableEq α] [One α]
    (n : Node α) (v : List (Node α × α)) : Option (List α) :=
  match n with
  | .Symbol _ => some []
  | .Constant _ => some []
  | .Add _ _ => some [1, 1]
  | .Mul a b =>
    match dlookup v b, dlookup v a with
    | some vb, some va => some [vb, va]
    | _, _ => none

/-- `n.symbolic_gradient()`: symbolic local gradients; `Add` contributes two
`Constant(1)` nodes, `Mul` the sibling nodes themselves. -/
def Node.symbolic_gradient [One α] (n : Node α) : List (Node α) :=
  match n with
  | .Symbol _ => []
  | .Constant _ => []
  | .Add _ _ => [.Constant 1, .Constant 1]
  | .Mul a b => [b, a]

/-- `derivatives[n] += in_grad` on a `defaultdict(int)`: a missing key is
first inserted with default `0`, so the entry becomes `0 + g`; an existing
entry is updated in place (dict order preserved). -/
def dAddNum [DecidableEq α] [Add α] [Zero α] :
    List (Node α × α) → Node α → α → List (Node α × α)
  | [], n, g => [(n, (0 : α) + g)]
  | (m, v) :: rest, n, g =>
    if m = n then (m, v + g) :: rest else (m, v) :: dAddNum rest n g

/-- `derivatives[n] = derivatives[n] + in_grad` on a
`defaultdict(lambda: Constant(0))`: reading a missing key inserts a fresh
`Constant(0)`, and `+` is the `sym_add` builder, so the entry becomes the
`Add` node `derivatives[n] + in_grad`. -/
def dAddSym [DecidableEq α] [Zero α] :
    List (Node α × Node α) → Node α → Node α → List (Node α × Node α)
  | [], n, g => [(n, sym_add (.Constant 0) g)]
  | (m, v) :: rest, n, g =>
    if m = n then (m, sym_add v g) :: rest else (m, v) :: dAddSym rest n g

/-- Termination measure for the queue traversals: total tree size of the
queued nodes. -/
def qMeasure {β : Type} (q : List (Node α × β)) : Nat :=
  (q.map (fun p => p.1.size)).sum

/-- The iterative loop of `numeric_gradient`: the `bfs` generator holds a
FIFO queue of `(node, incoming_contribution)` pairs; each dequeued pair is
accumulated into `derivatives`, the node's local gradients are combined
with the incoming contribution (`l * in_grad`) and the children are
enqueued, one pair per edge. -/
def gradLoopN [DecidableEq α] [Add α] [Mul α] [Zero α] [One α]
    (vals : List (Node α × α)) :
    List (Node α × α) → List (Node α × α) → Option (List (Node α × α))
  | derivs, [] => some derivs
  | derivs, (n, g) :: q =>
    match compute_gradient n vals with
    | none => none
    | some lg =>
      gradLoopN vals (dAddNum derivs n g)
        (q ++ (n.children.zip lg).map (fun p => (p.1, p.2 * g)))
termination_by derivs q => qMeasure q
decreasing_by
  simp only [qMeasure, List.map_append, List.sum_append, List.map_cons,
    List.sum_cons, List.map_map]
  have haux : ∀ (cs : List (Node α)) (ls : List α),
      ((cs.zip ls).map
        ((fun p => p.1.size) ∘ (fun p => (p.1, p.2 * g)))).sum
        ≤ (cs.map Node.size).sum := by
    intro cs
    induction cs with
    | nil => intro ls; simp
    | cons c cs ih =>
      intro ls
      cases ls with
      | nil => simp
      | cons l ls =>
        simp only [List.zip_cons_cons, List.map_cons, List.sum_cons,
          Function.comp]
        have h := ih ls
        omega
  have hch : (Node.children n |>.map Node.size).sum < n.size := by
    cases n <;>
      simp only [Node.children, Node.size, List.map_cons, List.map_nil,
        List.sum_cons, List.sum_nil] <;>
      omega
  have h1 := haux n.children lg
  omega

/-- The iterative loop of `symbolic_gradient`: identical queue protocol, but
accumulation builds `Add` nodes and the per-edge contribution is the `Mul`
node `l * in_grad` built by `sym_mul`. -/
def gradLoopS [DecidableEq α] [Zero α] [One α] :
    List (Node α × Node α) → List (Node α × Node α) → List (Node α × Node α)
  | derivs, [] => derivs
  | derivs, (n, g) :: q =>
    gradLoopS (dAddSym derivs n g)
      (q ++ (n.children.zip n.symbolic_gradient).map
        (fun p => (p.1, sym_mul p.2 g)))
termination_by derivs q => qMeasure q
decreasing_by
  simp only [qMeasure, List.map_append, List.sum_append, List.map_cons,
    List.sum_cons, List.map_map]
  have haux : ∀ (cs : List (Node α)) (ls : List (Node α)),
      ((cs.zip ls).map
        ((fun p => p.1.size) ∘ (fun p => (p.1, sym_mul p.2 g)))).sum
        ≤ (cs.map Node.size).sum := by
    intro cs
    induction cs with
    | nil => intro ls; simp
    | cons c cs ih =>
      intro ls
      cases ls with
      | nil => simp
      | cons l ls =>
        simp only [List.zip_cons_cons, List.map_cons, List.sum_cons,
          Function.comp]
        have h := ih ls
        omega
  have hch : (Node.children n |>.map Node.size).sum < n.size := by
    cases n <;>
      simp only [Node.children, Node.size, List.map_cons, List.map_nil,
        List.sum_cons, List.sum_nil] <;>
      omega
  have h1 := haux n.children n.symbolic_gradient
  omega

/-- `numeric_gradient(f, fargs)`: compute the forward value map (a
`KeyError` there propagates to the caller), then run the queue loop seeded
with `(f, 1)` on an empty `defaultdict(int)` accumulator. -/
def numeric_gradient [DecidableEq α] [Add α] [Mul α] [Zero α] [One α]
    (f : Node α) (fargs : List (String × α)) : Option (List (Node α × α)) :=
  match values f fargs with
  | none => none
  | some vals => gradLoopN vals [] [(f, 1)]

/-- `symbolic_gradient(f)`: run the queue loop seeded with
`(f, Constant(1))` on an empty `defaultdict(lambda: Constant(0))`
accumulator; no bindings and no forward pass are needed. -/
def symbolic_gradient [DecidableEq α] [Zero α] [One α]
    (f : Node α) : List (Node α × Node α) :=
  gradLoopS [] [(f, .Constant 1)]

/-! ## The simplifier (tree level)

`simplify` walks the graph in post-order, rebuilds each non-`Symbol` node
with the simplified counterparts of its children (`nodemap.get(c, c)`, so
`Symbol` children pass through unchanged), then applies every registered
rule in order (`for r in rules: nc = r(nc)` — a fold, each rule receiving
the previous rule's output).  At tree level the post-order `nodemap`
memoisation is ordinary memoisation of a deterministic function, so the
returned graph is the structural recursion `simplifyNode` below; the
object-identity effects of `copy.copy` (shared children lists, in-place
writes, fresh `Constant` objects) are settled on the heap model further
down.  `simplify` of a bare `Symbol` root is `none`: the loop `continue`s
on Symbols, so `nodemap` stays empty and `return nodemap[node]` raises
`KeyError`. -/

/-- `is_const(node, value)`: `node` is a `Constant` holding `value`. -/
def is_const [DecidableEq α] (n : Node α) (k : α) : Bool :=
  match n with
  | .Constant c => c = k
  | _ => false

/-- `mul_identity_rule` (gated by `applies_to(Mul)`): rewrite `1*x` to `x`
and `x*1` to `x`, first child checked first; anything else is returned
unchanged. -/
def mul_identity_rule [DecidableEq α] [One α] (n : Node α) : Node α :=
  match n with
  | .Mul a b => if is_const a 1 then b else if is_const b 1 then a else .Mul a b
  | _ => n

/-- `add_identity_rule` (gated by `applies_to(Add)`): rewrite `0+x` to `x`
and `x+0` to `x`. -/
def add_identity_rule [DecidableEq α] [Zero α] (n : Node α) : Node α :=
  match n with
  | .Add a b => if is_const a 0 then b else if is_const b 0 then a else .Add a b
  | _ => n

/-- `eval_to_const_rule`: try `value(node, {})`; on success replace the node
by a fresh `Constant` holding that value, and on the `KeyError` raised by
any reachable `Symbol` leave the node unchanged. -/
def eval_to_const_rule [DecidableEq α] [Add α] [Mul α] (n : Node α) : Node α :=
  match value n [] with
  | some k => .Constant k
  | none => n

/-- The registered rule list, in registration order:
`rules = [mul_identity_rule]`, then `rules.append(add_identity_rule)`,
then `rules.append(eval_to_const_rule)`. -/
def rules [DecidableEq α] [Add α] [Mul α] [Zero α] [One α] :
    List (Node α → Node α) :=
  [mul_identity_rule, add_identity_rule, eval_to_const_rule]

/-- `for r in rules: nc = r(nc)` — every rule applied in sequence, each to
the previous rule's output. -/
def applyRules [DecidableEq α] [Add α] [Mul α] [Zero α] [One α]
    (nc : Node α) : Node α :=
  rules.foldl (fun nc r => r nc) nc

/-- The per-node result of the post-order `simplify` sweep: `Symbol`s pass
through (they are skipped and parents default to the original child); every
other node is rebuilt with its simplified children and run through the rule
chain. -/
def simplifyNode [DecidableEq α] [Add α] [Mul α] [Zero α] [One α] :
    Node α → Node α
  | .Symbol s => .Symbol s
  | .Constant c => applyRules (.Constant c)
  | .Add a b => applyRules (.Add (simplifyNode a) (simplifyNode b))
  | .Mul a b => applyRules (.Mul (simplifyNode a) (simplifyNode b))

/-- `simplify(node)`: the final `return nodemap[node]`.  A `Symbol` root is
never entered into `nodemap`, so the lookup raises `KeyError` (= `none`). -/
def simplify [DecidableEq α] [Add α] [Mul α] [Zero α] [One α]
    (root : Node α) : Option (Node α) :=
  match root with
  | .Symbol _ => none
  | root => some (simplifyNode root)

/-- Modelled from the spec: the per-visit rule application the claim
describes — "rules are tried in registration order" and "once a rule
rewrites a node, no further rule is applied to the replacement during that
visit" — i.e. the first rule whose output differs from its input ends the
visit.  Compared against the source's `applyRules` chain. -/
def applyRulesFM [DecidableEq α] [Add α] [Mul α] [Zero α] [One α]
    (nc : Node α) : Node α :=
  let n1 := mul_identity_rule nc
  if n1 ≠ nc then n1
  else
    let n2 := add_identity_rule nc
    if n2 ≠ nc then n2 else eval_to_const_rule nc

/-- Modelled from the spec: `simplifyNode` with the at-most-one-rule-per-
visit application of `applyRulesFM`. -/
def simplifyFMNode [DecidableEq α] [Add α] [Mul α] [Zero α] [One α] :
    Node α → Node α
  | .Symbol s => .Symbol s
  | .Constant c => applyRulesFM (.Constant c)
  | .Add a b => applyRulesFM (.Add (simplifyFMNode a) (simplifyFMNode b))
  | .Mul a b => applyRulesFM (.Mul (simplifyFMNode a) (simplifyFMNode b))

/-- `n` contains a `Symbol` leaf. -/
def hasSymbol : Node α → Bool
  | .Symbol _ => true
  | .Constant _ => false
  | .Add a b => hasSymbol a || hasSymbol b
  | .Mul a b => hasSymbol a || hasSymbol b

/-- Normal forms of the rule chain: what the per-visit rewrite leaves
behind.  A surviving `Add` has no `Constant 0` child and still contains a
`Symbol` (otherwise constant folding would have fired); dually for `Mul`
with `Constant 1`. -/
def SimpNormal [DecidableEq α] [Add α] [Mul α] [Zero α] [One α] :
    Node α → Prop
  | .Symbol _ => True
  | .Constant _ => True
  | .Add u v => SimpNormal u ∧ SimpNormal v ∧ is_const u 0 = false ∧
      is_const v 0 = false ∧ value (Node.Add u v) ([] : List (String × α)) = none
  | .Mul u v => SimpNormal u ∧ SimpNormal v ∧ is_const u 1 = false ∧
      is_const v 1 = false ∧ value (Node.Mul u v) ([] : List (String × α)) = none

/-! ## Heap model of `simplify`

The in-place effects of `simplify` are invisible to a tree embedding, so
they are settled on an explicit object heap: Python objects are indices
into `Heap.objs`, each object holds a reference (`clist`) into
`Heap.lists`, the heap of `children` list objects.  `copy.copy(n)`
duplicates the object but *shares* the `children` list reference — so the
rebuild loop `nc.children[i] = nodemap.get(c, c)` writes through to the
original node's list.  The post-order generator is lazy, so it is modelled
by a walk that re-reads the live children lists at every step; recursion is
bounded by explicit fuel and all heap theorems evaluate concrete runs with
ample fuel. -/

/-- Heap-level node kinds (scalars fixed to `ℤ`, the notebook's literals). -/
inductive HKind : Type
  | hsym (name : String)
  | hconst (v : ℤ)
  | hadd
  | hmul
deriving DecidableEq

/-- A Python `Node` object: its kind and the reference to its `children`
list object. -/
structure HObj where
  kind : HKind
  clist : Nat
deriving DecidableEq

/-- The object heap: node objects and children-list objects. -/
structure Heap where
  objs : List HObj
  lists : List (List Nat)
deriving DecidableEq

/-- Kind of the object at index `i`. -/
def hKind (h : Heap) (i : Nat) : HKind := (h.objs.getD i ⟨.hadd, 0⟩).kind

/-- The live contents of `i`'s children list. -/
def hChildren (h : Heap) (i : Nat) : List Nat :=
  h.lists.getD (h.objs.getD i ⟨.hadd, 0⟩).clist []

/-- `obj.children[pos] = c`: write through `i`'s list reference. -/
def hSetChild (h : Heap) (i pos c : Nat) : Heap :=
  let li := (h.objs.getD i ⟨.hadd, 0⟩).clist
  { h with lists := h.lists.set li ((h.lists.getD li []).set pos c) }

/-- Allocate a fresh object with a fresh children list (a constructor
call). -/
def hAllocObj (h : Heap) (k : HKind) (cs : List Nat) : Heap × Nat :=
  ({ objs := h.objs ++ [⟨k, h.lists.length⟩], lists := h.lists ++ [cs] },
    h.objs.length)

/-- `copy.copy(n)`: a fresh object whose attribute dict is copied shallowly
— in particular it holds the *same* children list reference as `n`. -/
def hCopy (h : Heap) (i : Nat) : Heap × Nat :=
  ({ h with objs := h.objs ++ [h.objs.getD i ⟨.hadd, 0⟩] }, h.objs.length)

/-- `value(node, {})` over the live heap (`KeyError` on any `Symbol`). -/
def heapEval : Nat → Heap → Nat → Option ℤ
  | 0, _, _ => none
  | fuel + 1, h, i =>
    match hKind h i with
    | .hsym _ => none
    | .hconst v => some v
    | .hadd =>
      match heapEval fuel h ((hChildren h i).getD 0 0),
          heapEval fuel h ((hChildren h i).getD 1 0) with
      | some x, some y => some (x + y)
      | _, _ => none
    | .hmul =>
      match heapEval fuel h ((hChildren h i).getD 0 0),
          heapEval fuel h ((hChildren h i).getD 1 0) with
      | some x, some y => some (x * y)
      | _, _ => none

/-- Heap-level `is_const`. -/
def hIsConst (h : Heap) (i : Nat) (k : ℤ) : Bool :=
  match hKind h i with
  | .hconst v => v = k
  | _ => false

/-- Heap-level `mul_identity_rule`: returns an existing object (a child or
the node itself), allocating nothing. -/
def hMulIdentityRule (h : Heap) (nc : Nat) : Nat :=
  match hKind h nc with
  | .hmul =>
    if hIsConst h ((hChildren h nc).getD 0 0) 1 then (hChildren h nc).getD 1 0
    else if hIsConst h ((hChildren h nc).getD 1 0) 1 then
      (hChildren h nc).getD 0 0
    else nc
  | _ => nc

/-- Heap-level `add_identity_rule`. -/
def hAddIdentityRule (h : Heap) (nc : Nat) : Nat :=
  match hKind h nc with
  | .hadd =>
    if hIsConst h ((hChildren h nc).getD 0 0) 0 then (hChildren h nc).getD 1 0
    else if hIsConst h ((hChildren h nc).getD 1 0) 0 then
      (hChildren h nc).getD 0 0
    else nc
  | _ => nc

/-- Heap-level `eval_to_const_rule`: on success allocates a *fresh*
`Constant` object. -/
def hEvalToConstRule (fuel : Nat) (h : Heap) (nc : Nat) : Heap × Nat :=
  match heapEval fuel h nc with
  | some k => hAllocObj h (.hconst k) []
  | none => (h, nc)

/-- The source's rule chain on the heap: every rule applied in registration
order, each receiving the previous rule's output. -/
def applyRulesH (fuel : Nat) (h : Heap) (nc : Nat) : Heap × Nat :=
  let n1 := hMulIdentityRule h nc
  let n2 := hAddIdentityRule h n1
  hEvalToConstRule fuel h n2

/-- Modelled from the spec: at-most-one-rule-per-visit application on the
heap — the first rule returning a different object ends the visit. -/
def applyRulesHFM (fuel : Nat) (h : Heap) (nc : Nat) : Heap × Nat :=
  let n1 := hMulIdentityRule h nc
  if n1 ≠ nc then (h, n1)
  else
    let n2 := hAddIdentityRule h nc
    if n2 ≠ nc then (h, n2) else hEvalToConstRule fuel h nc

/-- Python dict assignment `d[k] = v`: update in place, else append. -/
def dset {κ β : Type} [DecidableEq κ] : List (κ × β) → κ → β → List (κ × β)
  | [], k, v => [(k, v)]
  | (k0, v0) :: rest, k, v =>
    if k0 = k then (k0, v) :: rest else (k0, v0) :: dset rest k v

/-- State of a `simplify` run: the heap and the `nodemap` dict. -/
structure SimpSt where
  heap : Heap
  nodemap : List (Nat × Nat)
deriving DecidableEq

/-- The rebuild loop `for i in range(len(nc.children)): nc.children[i] =
nodemap.get(c, c)` — reads and writes the live (shared) list. -/
def rebuildChildren (nm : List (Nat × Nat)) :
    Nat → Heap → Nat → Nat → Heap
  | 0, h, _, _ => h
  | cnt + 1, h, nc, i =>
    let c := (hChildren h nc).getD i 0
    rebuildChildren nm cnt (hSetChild h nc i ((dlookup nm c).getD c)) nc (i + 1)

/-- The `simplify` loop body for one yielded node: `Symbol`s are skipped;
otherwise shallow-copy, rebuild children through `nodemap`, run the rule
application `ap`, and store the result in `nodemap`. -/
def visitBody (ap : Heap → Nat → Heap × Nat) (st : SimpSt) (n : Nat) :
    SimpSt :=
  match hKind st.heap n with
  | .hsym _ => st
  | _ =>
    let (h1, nc) := hCopy st.heap n
    let h2 := rebuildChildren st.nodemap (hChildren h1 nc).length h1 nc 0
    let (h3, r) := ap h2 nc
    ⟨h3, dset st.nodemap n r⟩

mutual

/-- The lazy `postorder` generator interleaved with the loop body: children
first (re-reading the live lists), then the node itself. -/
def walkNode (ap : Heap → Nat → Heap × Nat) :
    Nat → SimpSt → Nat → Option SimpSt
  | 0, _, _ => none
  | fuel + 1, st, n =>
    match walkKids ap fuel st n 0 with
    | none => none
    | some st1 => some (visitBody ap st1 n)

/-- Iterate `for c in node.children`, reading the live list at each step. -/
def walkKids (ap : Heap → Nat → Heap × Nat) :
    Nat → SimpSt → Nat → Nat → Option SimpSt
  | 0, _, _, _ => none
  | fuel + 1, st, n, i =>
    if i < (hChildren st.heap n).length then
      match walkNode ap fuel st ((hChildren st.heap n).getD i 0) with
      | none => none
      | some st1 => walkKids ap fuel st1 n (i + 1)
    else some st

end

/-- Heap-level `simplify(root)` (with the source's chained rules): run the
walk on an empty `nodemap`, then `return nodemap[node]` — `none` when the
lookup raises `KeyError`. -/
def heapSimplify (fuel : Nat) (h : Heap) (root : Nat) :
    Option (SimpSt × Nat) :=
  match walkNode (applyRulesH fuel) fuel ⟨h, []⟩ root with
  | none => none
  | some st =>
    match dlookup st.nodemap root with
    | some r => some (st, r)
    | none => none

/-- Modelled from the spec: heap-level `simplify` with at-most-one-rule-
per-visit application. -/
def heapSimplifyFM (fuel : Nat) (h : Heap) (root : Nat) :
    Option (SimpSt × Nat) :=
  match walkNode (applyRulesHFM fuel) fuel ⟨h, []⟩ root with
  | none => none
  | some st =>
    match dlookup st.nodemap root with
    | some r => some (st, r)
    | none => none

/-! ## Not-a-number domain for the propagation claim -/

/-- Scalar domain with a not-a-number marker: the subset of Python float
behaviour the propagation policy is about — `nan` combined with anything
under `+` or `*` is `nan`, and no operation raises. -/
inductive NFloat : Type
  | num (v : ℤ)
  | nan
deriving DecidableEq

instance : Add NFloat :=
  ⟨fun a b =>
    match a, b with
    | .num x, .num y => .num (x + y)
    | _, _ => .nan⟩

instance : Mul NFloat :=
  ⟨fun a b =>
    match a, b with
    | .num x, .num y => .num (x * y)
    | _, _ => .nan⟩

instance : Zero NFloat := ⟨.num 0⟩

instance : One NFloat := ⟨.num 1⟩

/-! ## Stateful mirror of the evaluator for the frame claim

To state that `values` and `numeric_gradient` never touch the caller's
bindings dict, the dict is made an explicit state component: the caller's
`fargs` and the local value dict `v` live side by side, and every dict
write of the source targets exactly the dict it is performed on (`v = {}`,
`v.update(fargs)`, `v[n] = …`).  The theorems then show the `fargs`
component of the final state is the caller's dict, entry for entry. -/

/-- Mutable state visible to a `values` call: the caller's bindings dict
and the local value dict. -/
structure EvalSt where
  fargs : List (Node ℤ × ℤ)
  v : List (Node ℤ × ℤ)
deriving DecidableEq

/-- The `values` loop over the post-order list, writing only `st.v`. -/
def valuesLoop : List (Node ℤ) → EvalSt → Option EvalSt
  | [], st => some st
  | n :: rest, st =>
    if (dlookup st.v n).isSome then valuesLoop rest st
    else
      match compute_value n st.v with
      | some k => valuesLoop rest { st with v := st.v ++ [(n, k)] }
      | none => none

/-- `values(f, fargs)` with the dicts as explicit state: `v = {}` then
`v.update(fargs)` (copying the entries, not aliasing the dict), then the
post-order fill. -/
def valuesSt (f : Node ℤ) (st : EvalSt) : Option EvalSt :=
  valuesLoop (postorder f) { st with v := [] ++ st.fargs }

/-- `numeric_gradient(f, fargs)` with the dicts as explicit state: the
forward pass runs `valuesSt`; the queue loop reads the value dict and
writes only the fresh `derivatives` accumulator. -/
def numeric_gradient_st (f : Node ℤ) (st : EvalSt) :
    Option (EvalSt × List (Node ℤ × ℤ)) :=
  match valuesSt f st with
  | none => none
  | some st1 =>
    match gradLoopN st1.v [] [(f, 1)] with
    | none => none
    | some d => some (st1, d)

/-! ## Concrete inputs used by the example claims and witnesses -/

/-- `f = (x + y) * x`, built by the graph builders. -/
def fEx : Node ℤ := sym_mul (sym_add (.Symbol "x") (.Symbol "y")) (.Symbol "x")

/-- Bindings `{x: 2, y: 3}`. -/
def bEx : List (String × ℤ) := [("x", 2), ("y", 3)]

/-- The spec's constant-folding example: five nested `Constant(1)` sums. -/
def eFive : Node ℤ :=
  sym_add (sym_add (sym_add (sym_add (.Constant 1) (.Constant 1))
    (.Constant 1)) (.Constant 1)) (.Constant 1)

/-- `x*x + y*y` over the not-a-number domain. -/
def eNaN : Node NFloat :=
  sym_add (sym_mul (.Symbol "x") (.Symbol "x"))
    (sym_mul (.Symbol "y") (.Symbol "y"))

/-- Bindings `{x: nan, y: 3}`. -/
def bNaN : List (String × NFloat) := [("x", .nan), ("y", .num 3)]

/-- Initial heap for `simplify(mul(x, constant(1)))`: object 0 is
`Symbol('x')`, object 1 is `Constant(1)`, object 2 the `Mul` whose children
list (list object 2) is `[0, 1]`. -/
def heapC3 : Heap :=
  ⟨[⟨.hsym "x", 0⟩, ⟨.hconst 1, 1⟩, ⟨.hmul, 2⟩], [[], [], [0, 1]]⟩

/-- Initial heap for `simplify(mul(constant(2), constant(1)))`. -/
def heapC8 : Heap :=
  ⟨[⟨.hconst 2, 0⟩, ⟨.hconst 1, 1⟩, ⟨.hmul, 2⟩], [[], [], [0, 1]]⟩

/-- Caller state for the frame witness: bindings `{x: 2, y: 3}` keyed by
`Symbol` nodes, local value dict empty. -/
def stEx : EvalSt := ⟨[(.Symbol "x", 2), (.Symbol "y", 3)], []⟩

/-! ## Relations used by the refinement proof -/

/-- Value-dict soundness: every entry is the true denotation. -/
def VOK [DecidableEq α] [Add α] [Mul α] (B : List (String × α))
    (v : List (Node α × α)) : Prop :=
  ∀ n k, dlookup v n = some k → evalDen B n = some k

/-- The value dict subsumes the bindings on `Symbol` keys. -/
def SymOK [DecidableEq α] (B : List (String × α))
    (v : List (Node α × α)) : Prop :=
  ∀ s k, dlookup B s = some k → dlookup v (Node.Symbol s) = some k

/-- Numeric and symbolic accumulators run in lockstep: same keys in the
same dict order, each symbolic entry evaluating to the numeric one. -/
def DRel [DecidableEq α] [Add α] [Mul α] (B : List (String × α)) :
    List (Node α × α) → List (Node α × Node α) → Prop :=
  List.Forall₂ (fun pN pS => pN.1 = pS.1 ∧ evalDen B pS.2 = some pN.2)

/-- Numeric and symbolic work queues run in lockstep: same nodes (all
reachable from `e`) and contributions related by evaluation. -/
def QRel [DecidableEq α] [Add α] [Mul α] (e : Node α)
    (B : List (String × α)) :
    List (Node α × α) → List (Node α × Node α) → Prop :=
  List.Forall₂ (fun pN pS =>
    pN.1 = pS.1 ∧ pN.1 ∈ postorder e ∧ evalDen B pS.2 = some pN.2)

/-! # Theorems -/

/-! ## Dictionary and post-order lemmas -/

theorem dlookup_append {κ β : Type} [DecidableEq κ] (l1 l2 : List (κ × β))
    (a : κ) :
    dlookup (l1 ++ l2) a =
      match dlookup l1 a with
      | some v => some v
      | none => dlookup l2 a := by
  induction l1 with
  | nil => simp [dlookup]
  | cons p rest ih =>
    obtain ⟨k, v⟩ := p
    by_cases h : k = a <;> simp [dlookup, h, ih]

theorem dlookup_append_left {κ β : Type} [DecidableEq κ]
    {l1 : List (κ × β)} (l2 : List (κ × β)) {a : κ} {v : β}
    (h : dlookup l1 a = some v) : dlookup (l1 ++ l2) a = some v := by
  simp [dlookup_append, h]

theorem dlookup_append_right {κ β : Type} [DecidableEq κ]
    {l1 : List (κ × β)} (l2 : List (κ × β)) {a : κ}
    (h : dlookup l1 a = none) : dlookup (l1 ++ l2) a = dlookup l2 a := by
  simp [dlookup_append, h]

theorem dlookup_symMap_symbol [DecidableEq α] (B : List (String × α))
    (s : String) :
    dlookup (B.map fun p => ((Node.Symbol p.1 : Node α), p.2))
      (Node.Symbol s) = dlookup B s := by
  induction B with
  | nil => rfl
  | cons p rest ih =>
    obtain ⟨t, x⟩ := p
    by_cases h : t = s
    · simp [dlookup, h]
    · simp [dlookup, h, ih]

theorem dlookup_symMap_sound [DecidableEq α] {B : List (String × α)}
    {n : Node α} {k : α}
    (h : dlookup (B.map fun p => ((Node.Symbol p.1 : Node α), p.2)) n
      = some k) :
    ∃ s, n = Node.Symbol s ∧ dlookup B s = some k := by
  induction B with
  | nil => simp [dlookup] at h
  | cons p rest ih =>
    obtain ⟨t, x⟩ := p
    by_cases hn : Node.Symbol t = n
    · refine ⟨t, hn.symm, ?_⟩
      simp only [List.map_cons, dlookup, if_pos hn] at h
      simp [dlookup, ← h]
    · simp only [List.map_cons, dlookup, if_neg hn] at h
      obtain ⟨s, hs, hl⟩ := ih h
      refine ⟨s, hs, ?_⟩
      have hts : t ≠ s := by
        intro he
        exact hn (by rw [he, hs])
      simp [dlookup, hts, hl]

theorem self_mem_postorder (f : Node α) : f ∈ postorder f := by
  cases f <;> simp [postorder]

theorem children_mem_postorder (f : Node α) :
    ∀ n, n ∈ postorder f → ∀ c, c ∈ n.children → c ∈ postorder f := by
  induction f with
  | Symbol s =>
    intro n hn c hc
    simp [postorder] at hn
    subst hn
    simp [Node.children] at hc
  | Constant v =>
    intro n hn c hc
    simp [postorder] at hn
    subst hn
    simp [Node.children] at hc
  | Add a b iha ihb =>
    intro n hn c hc
    simp only [postorder, List.mem_append, List.mem_singleton] at hn ⊢
    rcases hn with (ha | hb) | he
    · exact Or.inl (Or.inl (iha n ha c hc))
    · exact Or.inl (Or.inr (ihb n hb c hc))
    · subst he
      simp [Node.children] at hc
      rcases hc with hc | hc
      · rw [hc]
        exact Or.inl (Or.inl (self_mem_postorder a))
      · rw [hc]
        exact Or.inl (Or.inr (self_mem_postorder b))
  | Mul a b iha ihb =>
    intro n hn c hc
    simp only [postorder, List.mem_append, List.mem_singleton] at hn ⊢
    rcases hn with (ha | hb) | he
    · exact Or.inl (Or.inl (iha n ha c hc))
    · exact Or.inl (Or.inr (ihb n hb c hc))
    · subst he
      simp [Node.children] at hc
      rcases hc with hc | hc
      · rw [hc]
        exact Or.inl (Or.inl (self_mem_postorder a))
      · rw [hc]
        exact Or.inl (Or.inr (self_mem_postorder b))

theorem valuesAux_append [DecidableEq α] [Add α] [Mul α]
    (l1 l2 : List (Node α)) :
    ∀ v, valuesAux v (l1 ++ l2) =
      match valuesAux v l1 with
      | some w => valuesAux w l2
      | none => none := by
  induction l1 with
  | nil => intro v; simp [valuesAux]
  | cons n rest ih =>
    intro v
    simp only [List.cons_append, valuesAux]
    by_cases h : (dlookup v n).isSome
    · simp only [if_pos h]
      exact ih v
    · simp only [if_neg h]
      cases hc : compute_value n v with
      | some k => exact ih _
      | none => rfl

theorem valuesAux_append_some [DecidableEq α] [Add α] [Mul α]
    {l1 : List (Node α)} (l2 : List (Node α))
    {v w : List (Node α × α)} (h : valuesAux v l1 = some w) :
    valuesAux v (l1 ++ l2) = valuesAux w l2 := by
  rw [valuesAux_append, h]

theorem valuesAux_append_none [DecidableEq α] [Add α] [Mul α]
    {l1 : List (Node α)} (l2 : List (Node α))
    {v : List (Node α × α)} (h : valuesAux v l1 = none) :
    valuesAux v (l1 ++ l2) = none := by
  rw [valuesAux_append, h]

theorem dlookup_single {κ β : Type} [DecidableEq κ] {k a : κ} {v j : β}
    (h : dlookup [(k, v)] a = some j) : k = a ∧ v = j := by
  by_cases he : k = a
  · refine ⟨he, ?_⟩
    simpa [dlookup, he] using h
  · simp [dlookup, he] at h

theorem dlookup_append_cases {κ β : Type} [DecidableEq κ]
    {l1 l2 : List (κ × β)} {a : κ} {j : β}
    (h : dlookup (l1 ++ l2) a = some j) :
    dlookup l1 a = some j ∨ (dlookup l1 a = none ∧ dlookup l2 a = some j) := by
  rw [dlookup_append] at h
  cases h1 : dlookup l1 a with
  | some v =>
    rw [h1] at h
    exact Or.inl h
  | none =>
    rw [h1] at h
    exact Or.inr ⟨rfl, h⟩

theorem dlookup_isSome_mono {κ β : Type} [DecidableEq κ]
    {v w : List (κ × β)}
    (hmono : ∀ m j, dlookup v m = some j → dlookup w m = some j)
    {n : κ} (h : (dlookup v n).isSome) : (dlookup w n).isSome := by
  obtain ⟨j, hj⟩ := Option.isSome_iff_exists.mp h
  simp [hmono n j hj]

theorem VOK_value_eq [DecidableEq α] [Add α] [Mul α]
    {B : List (String × α)} {w : List (Node α × α)} (hV : VOK B w)
    {n : Node α} {k j : α} (hden : evalDen B n = some k)
    (hj : dlookup w n = some j) : j = k := by
  have h2 := hV n j hj
  rw [hden] at h2
  injection h2 with h3
  exact h3.symm

/-- Main invariant of the `values` loop: running it over `postorder f` from
a sound dict fails exactly when the denotation of `f` is undefined, and on
success extends the dict soundly with an entry for every node reachable
from `f`, in particular the denotation of `f` itself. -/
theorem valuesAux_postorder [DecidableEq α] [Add α] [Mul α]
    (B : List (String × α)) (f : Node α) :
    ∀ v : List (Node α × α), VOK B v → SymOK B v →
      (evalDen B f = none → valuesAux v (postorder f) = none) ∧
      (∀ k, evalDen B f = some k →
        ∃ w, valuesAux v (postorder f) = some w ∧ VOK B w ∧ SymOK B w ∧
          (∀ m j, dlookup v m = some j → dlookup w m = some j) ∧
          (∀ n, n ∈ postorder f → (dlookup w n).isSome) ∧
          dlookup w f = some k) := by
  induction f with
  | Symbol s =>
    intro v hV hS
    constructor
    · intro hnone
      have hBs : dlookup B s = none := by simpa [evalDen] using hnone
      have hv : dlookup v (Node.Symbol s) = none := by
        cases hvs : dlookup v (Node.Symbol s) with
        | none => rfl
        | some j =>
          have h2 := hV _ _ hvs
          simp [evalDen, hBs] at h2
      simp [postorder, valuesAux, hv, compute_value]
    · intro k hk
      have hBs : dlookup B s = some k := by simpa [evalDen] using hk
      have hv : dlookup v (Node.Symbol s) = some k := hS s k hBs
      refine ⟨v, ?_, hV, hS, fun m j h => h, ?_, hv⟩
      · simp [postorder, valuesAux, hv]
      · intro n hn
        simp [postorder] at hn
        rw [hn]
        simp [hv]
  | Constant c =>
    intro v hV hS
    constructor
    · intro hnone
      simp [evalDen] at hnone
    · intro k hk
      have hkc : c = k := by simpa [evalDen] using hk
      subst hkc
      by_cases hv : (dlookup v (Node.Constant c)).isSome
      · obtain ⟨j, hj⟩ := Option.isSome_iff_exists.mp hv
        have hjc : j = c := VOK_value_eq hV (by simp [evalDen]) hj
        subst hjc
        refine ⟨v, ?_, hV, hS, fun m j h => h, ?_, hj⟩
        · simp [postorder, valuesAux, hv]
        · intro n hn
          simp [postorder] at hn
          rw [hn]
          exact hv
      · have hvn : dlookup v (Node.Constant c) = none :=
          Option.not_isSome_iff_eq_none.mp hv
        refine ⟨v ++ [(Node.Constant c, c)], ?_, ?_, ?_, ?_, ?_, ?_⟩
        · simp [postorder, valuesAux, hvn, compute_value]
        · intro n j hnj
          rcases dlookup_append_cases hnj with h1 | ⟨h1, h2⟩
          · exact hV n j h1
          · obtain ⟨he, hj⟩ := dlookup_single h2
            rw [← he, ← hj]
            simp [evalDen]
        · intro s2 k2 hB2
          exact dlookup_append_left _ (hS s2 k2 hB2)
        · intro m j h
          exact dlookup_append_left _ h
        · intro n hn
          simp [postorder] at hn
          rw [hn, dlookup_append_right _ hvn]
          simp [dlookup]
        · rw [dlookup_append_right _ hvn]
          simp [dlookup]
  | Add a b iha ihb =>
    intro v hV hS
    have hsplit : postorder (Node.Add a b)
        = postorder a ++ (postorder b ++ [Node.Add a b]) := by
      simp [postorder]
    constructor
    · intro hnone
      rw [hsplit]
      cases ha : evalDen B a with
      | none => exact valuesAux_append_none _ ((iha v hV hS).1 ha)
      | some ka =>
        obtain ⟨w1, hw1, hV1, hS1, hmono1, hmem1, hfa⟩ :=
          (iha v hV hS).2 ka ha
        rw [valuesAux_append_some _ hw1]
        cases hb : evalDen B b with
        | none => exact valuesAux_append_none _ ((ihb w1 hV1 hS1).1 hb)
        | some kb => simp [evalDen, ha, hb] at hnone
    · intro k hk
      cases ha : evalDen B a with
      | none => simp [evalDen, ha] at hk
      | some ka =>
        cases hb : evalDen B b with
        | none => simp [evalDen, ha, hb] at hk
        | some kb =>
          have hden : evalDen B (Node.Add a b) = some (ka + kb) := by
            simp [evalDen, ha, hb]
          have hksum : ka + kb = k := by
            rw [hden] at hk
            injection hk
          obtain ⟨w1, hw1, hV1, hS1, hmono1, hmem1, hfa⟩ :=
            (iha v hV hS).2 ka ha
          obtain ⟨w2, hw2, hV2, hS2, hmono2, hmem2, hfb⟩ :=
            (ihb w1 hV1 hS1).2 kb hb
          have hw2a : dlookup w2 a = some ka := by
            obtain ⟨ja, hja⟩ :=
              Option.isSome_iff_exists.mp (hmem1 a (self_mem_postorder a))
            have hjk : ja = ka := VOK_value_eq hV1 ha hja
            exact hmono2 a ka (hjk ▸ hja)
          have hw2b : dlookup w2 b = some kb := hfb
          rw [hsplit, valuesAux_append_some _ hw1, valuesAux_append_some _ hw2]
          by_cases hmem : (dlookup w2 (Node.Add a b)).isSome
          · obtain ⟨j, hj⟩ := Option.isSome_iff_exists.mp hmem
            have hjk : j = k := VOK_value_eq hV2 (hksum ▸ hden) hj
            subst hjk
            refine ⟨w2, ?_, hV2, hS2, ?_, ?_, hj⟩
            · simp [valuesAux, hmem]
            · intro m j2 h
              exact hmono2 m j2 (hmono1 m j2 h)
            · intro n hn
              simp only [postorder, List.mem_append, List.mem_singleton,
                or_assoc] at hn
              rcases hn with h1 | h2 | h3
              · exact dlookup_isSome_mono hmono2 (hmem1 n h1)
              · exact hmem2 n h2
              · rw [h3]
                exact hmem
          · have hvn : dlookup w2 (Node.Add a b) = none :=
              Option.not_isSome_iff_eq_none.mp hmem
            refine ⟨w2 ++ [(Node.Add a b, k)], ?_, ?_, ?_, ?_, ?_, ?_⟩
            · simp [valuesAux, hvn, compute_value, hw2a, hw2b, hksum]
            · intro n j hnj
              rcases dlookup_append_cases hnj with h1 | ⟨h1, h2⟩
              · exact hV2 n j h1
              · obtain ⟨he, hj⟩ := dlookup_single h2
                rw [← he, ← hj]
                exact hksum ▸ hden
            · intro s2 k2 hB2
              exact dlookup_append_left _ (hS2 s2 k2 hB2)
            · intro m j h
              exact dlookup_append_left _ (hmono2 m j (hmono1 m j h))
            · intro n hn
              simp only [postorder, List.mem_append, List.mem_singleton,
                or_assoc] at hn
              rcases hn with h1 | h2 | h3
              · exact dlookup_isSome_mono (fun m j h =>
                  dlookup_append_left _ h)
                  (dlookup_isSome_mono hmono2 (hmem1 n h1))
              · exact dlookup_isSome_mono (fun m j h =>
                  dlookup_append_left _ h) (hmem2 n h2)
              · rw [h3, dlookup_append_right _ hvn]
                simp [dlookup]
            · rw [dlookup_append_right _ hvn]
              simp [dlookup]
  | Mul a b iha ihb =>
    intro v hV hS
    have hsplit : postorder (Node.Mul a b)
        = postorder a ++ (postorder b ++ [Node.Mul a b]) := by
      simp [postorder]
    constructor
    · intro hnone
      rw [hsplit]
      cases ha : evalDen B a with
      | none => exact valuesAux_append_none _ ((iha v hV hS).1 ha)
      | some ka =>
        obtain ⟨w1, hw1, hV1, hS1, hmono1, hmem1, hfa⟩ :=
          (iha v hV hS).2 ka ha
        rw [valuesAux_append_some _ hw1]
        cases hb : evalDen B b with
        | none => exact valuesAux_append_none _ ((ihb w1 hV1 hS1).1 hb)
        | some kb => simp [evalDen, ha, hb] at hnone
    · intro k hk
      cases ha : evalDen B a with
      | none => simp [evalDen, ha] at hk
      | some ka =>
        cases hb : evalDen B b with
        | none => simp [evalDen, ha, hb] at hk
        | some kb =>
          have hden : evalDen B (Node.Mul a b) = some (ka * kb) := by
            simp [evalDen, ha, hb]
          have hksum : ka * kb = k := by
            rw [hden] at hk
            injection hk
          obtain ⟨w1, hw1, hV1, hS1, hmono1, hmem1, hfa⟩ :=
            (iha v hV hS).2 ka ha
          obtain ⟨w2, hw2, hV2, hS2, hmono2, hmem2, hfb⟩ :=
            (ihb w1 hV1 hS1).2 kb hb
          have hw2a : dlookup w2 a = some ka := by
            obtain ⟨ja, hja⟩ :=
              Option.isSome_iff_exists.mp (hmem1 a (self_mem_postorder a))
            have hjk : ja = ka := VOK_value_eq hV1 ha hja
            exact hmono2 a ka (hjk ▸ hja)
          have hw2b : dlookup w2 b = some kb := hfb
          rw [hsplit, valuesAux_append_some _ hw1, valuesAux_append_some _ hw2]
          by_cases hmem : (dlookup w2 (Node.Mul a b)).isSome
          · obtain ⟨j, hj⟩ := Option.isSome_iff_exists.mp hmem
            have hjk : j = k := VOK_value_eq hV2 (hksum ▸ hden) hj
            subst hjk
            refine ⟨w2, ?_, hV2, hS2, ?_, ?_, hj⟩
            · simp [valuesAux, hmem]
            · intro m j2 h
              exact hmono2 m j2 (hmono1 m j2 h)
            · intro n hn
              simp only [postorder, List.mem_append, List.mem_singleton,
                or_assoc] at hn
              rcases hn with h1 | h2 | h3
              · exact dlookup_isSome_mono hmono2 (hmem1 n h1)
              · exact hmem2 n h2
              · rw [h3]
                exact hmem
          · have hvn : dlookup w2 (Node.Mul a b) = none :=
              Option.not_isSome_iff_eq_none.mp hmem
            refine ⟨w2 ++ [(Node.Mul a b, k)], ?_, ?_, ?_, ?_, ?_, ?_⟩
            · simp [valuesAux, hvn, compute_value, hw2a, hw2b, hksum]
            · intro n j hnj
              rcases dlookup_append_cases hnj with h1 | ⟨h1, h2⟩
              · exact hV2 n j h1
              · obtain ⟨he, hj⟩ := dlookup_single h2
                rw [← he, ← hj]
                exact hksum ▸ hden
            · intro s2 k2 hB2
              exact dlookup_append_left _ (hS2 s2 k2 hB2)
            · intro m j h
              exact dlookup_append_left _ (hmono2 m j (hmono1 m j h))
            · intro n hn
              simp only [postorder, List.mem_append, List.mem_singleton,
                or_assoc] at hn
              rcases hn with h1 | h2 | h3
              · exact dlookup_isSome_mono (fun m j h =>
                  dlookup_append_left _ h)
                  (dlookup_isSome_mono hmono2 (hmem1 n h1))
              · exact dlookup_isSome_mono (fun m j h =>
                  dlookup_append_left _ h) (hmem2 n h2)
              · rw [h3, dlookup_append_right _ hvn]
                simp [dlookup]
            · rw [dlookup_append_right _ hvn]
              simp [dlookup]

theorem VOK_init [DecidableEq α] [Add α] [Mul α] (B : List (String × α)) :
    VOK B (B.map fun p => ((Node.Symbol p.1 : Node α), p.2)) := by
  intro n k h
  obtain ⟨s, rfl, hl⟩ := dlookup_symMap_sound h
  simpa [evalDen] using hl

theorem SymOK_init [DecidableEq α] (B : List (String × α)) :
    SymOK B (B.map fun p => ((Node.Symbol p.1 : Node α), p.2)) := by
  intro s k h
  rw [dlookup_symMap_symbol]
  exact h

/-- The dict-based evaluator agrees with the reference denotation on every
input, including the failure cases. -/
theorem value_eq_evalDen [DecidableEq α] [Add α] [Mul α]
    (f : Node α) (B : List (String × α)) : value f B = evalDen B f := by
  cases hden : evalDen B f with
  | none =>
    have h := (valuesAux_postorder B f _ (VOK_init B) (SymOK_init B)).1 hden
    simp [value, values, h]
  | some k =>
    obtain ⟨w, hw, _, _, _, _, hf⟩ :=
      (valuesAux_postorder B f _ (VOK_init B) (SymOK_init B)).2 k hden
    simp [value, values, hw, hf]

/-- On success, `values` returns a dict with a sound entry for every node
reachable from `f`. -/
theorem values_spec [DecidableEq α] [Add α] [Mul α]
    {f : Node α} {B : List (String × α)} {k : α}
    (h : evalDen B f = some k) :
    ∃ vals, values f B = some vals ∧
      ∀ n, n ∈ postorder f →
        ∃ j, dlookup vals n = some j ∧ evalDen B n = some j := by
  obtain ⟨w, hw, hVw, _, _, hmem, _⟩ :=
    (valuesAux_postorder B f _ (VOK_init B) (SymOK_init B)).2 k h
  refine ⟨w, hw, fun n hn => ?_⟩
  obtain ⟨j, hj⟩ := Option.isSome_iff_exists.mp (hmem n hn)
  exact ⟨j, hj, hVw n j hj⟩

theorem allBound_iff [DecidableEq α] [Add α] [Mul α]
    (f : Node α) (B : List (String × α)) :
    allBound f B = true ↔ (evalDen B f).isSome := by
  induction f with
  | Symbol s => simp [allBound, postorder, evalDen]
  | Constant c => simp [allBound, postorder, evalDen]
  | Add a b iha ihb =>
    have hsp : allBound (Node.Add a b) B = (allBound a B && allBound b B) := by
      simp [allBound, postorder, List.all_append]
    rw [hsp, Bool.and_eq_true, iha, ihb]
    cases ha : evalDen B a <;> cases hb : evalDen B b <;>
      simp [evalDen, ha, hb]
  | Mul a b iha ihb =>
    have hsp : allBound (Node.Mul a b) B = (allBound a B && allBound b B) := by
      simp [allBound, postorder, List.all_append]
    rw [hsp, Bool.and_eq_true, iha, ihb]
    cases ha : evalDen B a <;> cases hb : evalDen B b <;>
      simp [evalDen, ha, hb]

theorem evalDen_none_iff [DecidableEq α] [Add α] [Mul α]
    (f : Node α) (B : List (String × α)) :
    evalDen B f = none ↔
      ∃ s, Node.Symbol s ∈ postorder f ∧ dlookup B s = none := by
  induction f with
  | Symbol t => simp [evalDen, postorder]
  | Constant c => simp [evalDen, postorder]
  | Add a b iha ihb =>
    constructor
    · intro h
      cases ha : evalDen B a with
      | none =>
        obtain ⟨s, hs, hl⟩ := iha.mp ha
        refine ⟨s, ?_, hl⟩
        simp only [postorder, List.mem_append]
        exact Or.inl (Or.inl hs)
      | some ka =>
        cases hb : evalDen B b with
        | none =>
          obtain ⟨s, hs, hl⟩ := ihb.mp hb
          refine ⟨s, ?_, hl⟩
          simp only [postorder, List.mem_append]
          exact Or.inl (Or.inr hs)
        | some kb => simp [evalDen, ha, hb] at h
    · rintro ⟨s, hs, hl⟩
      simp only [postorder, List.mem_append, List.mem_singleton,
        or_assoc] at hs
      rcases hs with h1 | h2 | h3
      · have ha : evalDen B a = none := iha.mpr ⟨s, h1, hl⟩
        simp [evalDen, ha]
      · have hb : evalDen B b = none := ihb.mpr ⟨s, h2, hl⟩
        cases ha : evalDen B a <;> simp [evalDen, ha, hb]
      · exact absurd h3 (by simp)
  | Mul a b iha ihb =>
    constructor
    · intro h
      cases ha : evalDen B a with
      | none =>
        obtain ⟨s, hs, hl⟩ := iha.mp ha
        refine ⟨s, ?_, hl⟩
        simp only [postorder, List.mem_append]
        exact Or.inl (Or.inl hs)
      | some ka =>
        cases hb : evalDen B b with
        | none =>
          obtain ⟨s, hs, hl⟩ := ihb.mp hb
          refine ⟨s, ?_, hl⟩
          simp only [postorder, List.mem_append]
          exact Or.inl (Or.inr hs)
        | some kb => simp [evalDen, ha, hb] at h
    · rintro ⟨s, hs, hl⟩
      simp only [postorder, List.mem_append, List.mem_singleton,
        or_assoc] at hs
      rcases hs with h1 | h2 | h3
      · have ha : evalDen B a = none := iha.mpr ⟨s, h1, hl⟩
        simp [evalDen, ha]
      · have hb : evalDen B b = none := ihb.mpr ⟨s, h2, hl⟩
        cases ha : evalDen B a <;> simp [evalDen, ha, hb]
      · exact absurd h3 (by simp)

/-- C4: `evaluate(root, bindings)` fails (the `Symbol.compute_value` lookup
raises `MissingBinding`/`KeyError`) exactly when some `Symbol` reachable
from `root` — a member of `postorder root` — has no entry in the bindings;
otherwise it succeeds, returning the reference denotation, so no missing
symbol is ever silently defaulted. -/
theorem evaluate_missing_binding_iff [DecidableEq α] [Add α] [Mul α]
    (root : Node α) (B : List (String × α)) :
    (value root B = none ↔
      ∃ s, Node.Symbol s ∈ postorder root ∧ dlookup B s = none) ∧
    value root B = evalDen B root := by
  refine ⟨?_, value_eq_evalDen root B⟩
  rw [value_eq_evalDen root B]
  exact evalDen_none_iff root B

/-- C1: for `f = (x + y) * x` with bindings `{x: 2, y: 3}`, `evaluate`
returns 10, and the numeric gradient maps `x` to 7 — the sum of the
contributions 5 and 2 over the two paths by which `x` reaches the root —
and `y` to 2. -/
theorem shared_subexpression_example :
    value fEx bEx = some 10 ∧
    ∃ d, numeric_gradient fEx bEx = some d ∧
      dlookup d (Node.Symbol "x") = some 7 ∧
      dlookup d (Node.Symbol "y") = some 2 := by
  refine ⟨by decide, ?_⟩
  refine ⟨[(fEx, 1), (Node.Add (.Symbol "x") (.Symbol "y"), 2),
    (Node.Symbol "x", 7), (Node.Symbol "y", 2)], ?_, by decide, by decide⟩
  simp [numeric_gradient, fEx, bEx, values, postorder, valuesAux, dlookup,
    compute_value, gradLoopN, compute_gradient, Node.children, dAddNum,
    sym_add, sym_mul]

theorem Node.size_pos (n : Node α) : 0 < n.size := by
  cases n <;> simp only [Node.size] <;> omega

theorem DRel_dAdd [DecidableEq α] [Add α] [Mul α] [Zero α]
    {B : List (String × α)} {dN : List (Node α × α)}
    {dS : List (Node α × Node α)} (h : DRel B dN dS)
    {n : Node α} {gN : α} {gS : Node α} (hg : evalDen B gS = some gN) :
    DRel B (dAddNum dN n gN) (dAddSym dS n gS) := by
  unfold DRel at h ⊢
  induction h with
  | nil =>
    refine List.Forall₂.cons ⟨rfl, ?_⟩ List.Forall₂.nil
    simp [sym_add, evalDen, hg]
  | @cons pN pS lN lS hp hrest ih =>
    obtain ⟨mN, vN⟩ := pN
    obtain ⟨mS, vS⟩ := pS
    obtain ⟨hm, hv⟩ := hp
    dsimp only at hm hv
    subst hm
    by_cases hn : mN = n
    · simp only [dAddNum, dAddSym, if_pos hn]
      refine List.Forall₂.cons ⟨rfl, ?_⟩ hrest
      simp [sym_add, evalDen, hv, hg]
    · simp only [dAddNum, dAddSym, if_neg hn]
      exact List.Forall₂.cons ⟨rfl, hv⟩ ih

theorem DRel_dlookup [DecidableEq α] [Add α] [Mul α]
    {B : List (String × α)} {dN : List (Node α × α)}
    {dS : List (Node α × Node α)} (h : DRel B dN dS) (n : Node α) :
    (dlookup dN n = none ∧ dlookup dS n = none) ∨
      ∃ vN vS, dlookup dN n = some vN ∧ dlookup dS n = some vS ∧
        evalDen B vS = some vN := by
  unfold DRel at h
  induction h with
  | nil => exact Or.inl ⟨rfl, rfl⟩
  | @cons pN pS lN lS hp hrest ih =>
    obtain ⟨mN, vN⟩ := pN
    obtain ⟨mS, vS⟩ := pS
    obtain ⟨hm, hv⟩ := hp
    dsimp only at hm hv
    subst hm
    by_cases hn : mN = n
    · exact Or.inr ⟨vN, vS, by simp [dlookup, hn], by simp [dlookup, hn], hv⟩
    · simpa [dlookup, hn] using ih

theorem Forall₂_append_of {γ δ : Type} {R : γ → δ → Prop}
    {l₁ l₂ : List γ} {u₁ u₂ : List δ} (h₁ : List.Forall₂ R l₁ u₁)
    (h₂ : List.Forall₂ R l₂ u₂) : List.Forall₂ R (l₁ ++ l₂) (u₁ ++ u₂) :=
  List.rel_append h₁ h₂

/-- Lockstep simulation of the numeric and symbolic gradient loops: from
related accumulators and related queues over nodes reachable from `e`, the
numeric loop succeeds and the two final accumulators are related.  The
fuel `M` bounds the strictly decreasing queue measure. -/
theorem gradLoop_parallel [DecidableEq α] [Add α] [Mul α] [Zero α] [One α]
    (e : Node α) (B : List (String × α)) (vals : List (Node α × α))
    (hvals : ∀ n, n ∈ postorder e →
      ∃ k, dlookup vals n = some k ∧ evalDen B n = some k) :
    ∀ (M : Nat) (dN : List (Node α × α)) (qN : List (Node α × α))
      (dS : List (Node α × Node α)) (qS : List (Node α × Node α)),
      qMeasure qN ≤ M → DRel B dN dS → QRel e B qN qS →
      ∃ dN', gradLoopN vals dN qN = some dN' ∧
        DRel B dN' (gradLoopS dS qS) := by
  intro M
  induction M with
  | zero =>
    intro dN qN dS qS hM hD hQ
    cases qN with
    | nil =>
      unfold QRel at hQ
      cases hQ
      exact ⟨dN, by simp [gradLoopN], by simpa [gradLoopS] using hD⟩
    | cons p q =>
      exfalso
      obtain ⟨n, g⟩ := p
      have hpos := Node.size_pos n
      simp only [qMeasure, List.map_cons, List.sum_cons,
        Nat.le_zero] at hM
      omega
  | succ M ih =>
    intro dN qN dS qS hM hD hQ
    cases qN with
    | nil =>
      unfold QRel at hQ
      cases hQ
      exact ⟨dN, by simp [gradLoopN], by simpa [gradLoopS] using hD⟩
    | cons pN qN' =>
      obtain ⟨n, gN⟩ := pN
      unfold QRel at hQ
      rw [List.forall₂_cons_left_iff] at hQ
      obtain ⟨pS, qS', hp, hrest, rfl⟩ := hQ
      obtain ⟨nS, gS⟩ := pS
      obtain ⟨hn1, hmem, hg⟩ := hp
      dsimp only at hn1 hmem hg
      subst hn1
      simp only [qMeasure, List.map_cons, List.sum_cons] at hM
      cases n with
      | Symbol s =>
        simp only [gradLoopN, gradLoopS, compute_gradient,
          Node.symbolic_gradient, Node.children, List.zip_nil_right,
          List.map_nil, List.append_nil]
        refine ih (dAddNum dN (Node.Symbol s) gN) qN'
          (dAddSym dS (Node.Symbol s) gS) qS' ?_ (DRel_dAdd hD hg) hrest
        simp only [Node.size] at hM
        simp only [qMeasure]
        omega
      | Constant c =>
        simp only [gradLoopN, gradLoopS, compute_gradient,
          Node.symbolic_gradient, Node.children, List.zip_nil_right,
          List.map_nil, List.append_nil]
        refine ih (dAddNum dN (Node.Constant c) gN) qN'
          (dAddSym dS (Node.Constant c) gS) qS' ?_ (DRel_dAdd hD hg) hrest
        simp only [Node.size] at hM
        simp only [qMeasure]
        omega
      | Add a b =>
        have hca : a ∈ postorder e :=
          children_mem_postorder e _ hmem a (by simp [Node.children])
        have hcb : b ∈ postorder e :=
          children_mem_postorder e _ hmem b (by simp [Node.children])
        simp only [gradLoopN, gradLoopS, compute_gradient,
          Node.symbolic_gradient, Node.children, List.zip_cons_cons,
          List.zip_nil_right, List.map_cons, List.map_nil]
        refine ih _ _ _ _ ?_ (DRel_dAdd hD hg) ?_
        · simp only [qMeasure, List.map_append, List.sum_append,
            List.map_cons, List.sum_cons, List.map_nil, List.sum_nil,
            Node.size] at hM ⊢
          omega
        · unfold QRel
          refine Forall₂_append_of hrest ?_
          refine List.Forall₂.cons ⟨rfl, hca, ?_⟩
            (List.Forall₂.cons ⟨rfl, hcb, ?_⟩ List.Forall₂.nil)
          · simp [sym_mul, evalDen, hg]
          · simp [sym_mul, evalDen, hg]
      | Mul a b =>
        have hca : a ∈ postorder e :=
          children_mem_postorder e _ hmem a (by simp [Node.children])
        have hcb : b ∈ postorder e :=
          children_mem_postorder e _ hmem b (by simp [Node.children])
        obtain ⟨ka, hka, hdena⟩ := hvals a hca
        obtain ⟨kb, hkb, hdenb⟩ := hvals b hcb
        simp only [gradLoopN, gradLoopS, compute_gradient,
          Node.symbolic_gradient, Node.children, hka, hkb,
          List.zip_cons_cons, List.zip_nil_right, List.map_cons,
          List.map_nil]
        refine ih _ _ _ _ ?_ (DRel_dAdd hD hg) ?_
        · simp only [qMeasure, List.map_append, List.sum_append,
            List.map_cons, List.sum_cons, List.map_nil, List.sum_nil,
            Node.size] at hM ⊢
          omega
        · unfold QRel
          refine Forall₂_append_of hrest ?_
          refine List.Forall₂.cons ⟨rfl, hca, ?_⟩
            (List.Forall₂.cons ⟨rfl, hcb, ?_⟩ List.Forall₂.nil)
          · simp [sym_mul, evalDen, hg, hdenb]
          · simp [sym_mul, evalDen, hg, hdena]

/-- C2: for every expression `e`, bindings `B` covering all reachable
symbols, and symbol `s`, evaluating the symbolic derivative node
`symbolic_gradient(e)[s]` (default `Constant(0)`) under `B` yields exactly
the numeric derivative `numeric_gradient(e, B)[s]` (default `0`). -/
theorem symbolic_numeric_agreement [DecidableEq α] [Add α] [Mul α]
    [Zero α] [One α] (e : Node α) (B : List (String × α)) (s : String)
    (hB : allBound e B = true) :
    ∃ dN, numeric_gradient e B = some dN ∧
      value ((dlookup (symbolic_gradient e) (Node.Symbol s)).getD
        (Node.Constant 0)) B
        = some ((dlookup dN (Node.Symbol s)).getD 0) := by
  obtain ⟨k, hk⟩ := Option.isSome_iff_exists.mp ((allBound_iff e B).mp hB)
  obtain ⟨vals, hvals, hmem⟩ := values_spec hk
  obtain ⟨dN, hdN, hDR⟩ := gradLoop_parallel e B vals hmem
    (qMeasure [(e, (1 : α))]) [] [(e, 1)] [] [(e, .Constant 1)] le_rfl
    (by unfold DRel; exact List.Forall₂.nil)
    (by
      unfold QRel
      exact List.Forall₂.cons ⟨rfl, self_mem_postorder e, by simp [evalDen]⟩
        List.Forall₂.nil)
  refine ⟨dN, ?_, ?_⟩
  · simp [numeric_gradient, hvals, hdN]
  · rw [symbolic_gradient]
    rcases DRel_dlookup hDR (Node.Symbol s) with ⟨h1, h2⟩ |
      ⟨vN, vS, h1, h2, h3⟩
    · rw [h1, h2]
      simp only [Option.getD_none]
      rw [value_eq_evalDen]
      simp [evalDen]
    · rw [h1, h2]
      simp only [Option.getD_some]
      rw [value_eq_evalDen]
      exact h3

/-- Witness for C2 at `f = (x + y) * x`, `{x: 2, y: 3}`, `s = "x"`. -/
theorem symbolic_numeric_agreement_witness :
    allBound fEx bEx = true ∧
    ∃ dN, numeric_gradient fEx bEx = some dN ∧
      value ((dlookup (symbolic_gradient fEx) (Node.Symbol "x")).getD
        (Node.Constant 0)) bEx
        = some ((dlookup dN (Node.Symbol "x")).getD 0) :=
  ⟨by decide, symbolic_numeric_agreement fEx bEx "x" (by decide)⟩

/-! ## Simplifier claims -/

/-- C5 (evaluation at the failing input): `simplify` applied to a bare
`Symbol` root fails — the loop `continue`s on Symbols, so `nodemap` stays
empty and `return nodemap[node]` raises `KeyError` — contradicting both
"simplify never fails" and "`simplify(s)` returns `s`".  The remaining part
of the claim is true and included: each rule returns a node it cannot
rewrite unchanged. -/
theorem simplify_symbol_root_fails :
    simplify (Node.Symbol (α := ℤ) "x") = none ∧
    mul_identity_rule (Node.Symbol (α := ℤ) "x") = Node.Symbol "x" ∧
    add_identity_rule (Node.Symbol (α := ℤ) "x") = Node.Symbol "x" ∧
    eval_to_const_rule (Node.Symbol (α := ℤ) "x") = Node.Symbol "x" := by
  refine ⟨rfl, rfl, rfl, by decide⟩

/-- C6 (evaluation at the failing input): `simplify(mul(x, constant(1)))`
returns the bare Symbol `x`, and applying `simplify` a second time to that
result raises `KeyError` instead of returning it unchanged, so
`simplify(simplify(e)) == simplify(e)` fails at this `e`. -/
theorem simplify_second_pass_fails :
    simplify (Node.Mul (Node.Symbol "x") (Node.Constant (1 : ℤ)))
      = some (Node.Symbol "x") ∧
    simplify (Node.Symbol (α := ℤ) "x") = none :=
  ⟨by decide, rfl⟩

theorem evalDen_nil_isSome_of_no_symbol [DecidableEq α] [Add α] [Mul α]
    {e : Node α} (h : hasSymbol e = false) :
    ∃ k, evalDen ([] : List (String × α)) e = some k := by
  induction e with
  | Symbol s => simp [hasSymbol] at h
  | Constant c => exact ⟨c, rfl⟩
  | Add a b iha ihb =>
    simp only [hasSymbol, Bool.or_eq_false_iff] at h
    obtain ⟨ka, hka⟩ := iha h.1
    obtain ⟨kb, hkb⟩ := ihb h.2
    exact ⟨ka + kb, by simp [evalDen, hka, hkb]⟩
  | Mul a b iha ihb =>
    simp only [hasSymbol, Bool.or_eq_false_iff] at h
    obtain ⟨ka, hka⟩ := iha h.1
    obtain ⟨kb, hkb⟩ := ihb h.2
    exact ⟨ka * kb, by simp [evalDen, hka, hkb]⟩

theorem simplify_eq_simplifyNode [DecidableEq α] [Add α] [Mul α] [Zero α]
    [One α] {root : Node α} (h : ∀ s, root ≠ Node.Symbol s) :
    simplify root = some (simplifyNode root) := by
  cases root with
  | Symbol s => exact absurd rfl (h s)
  | Constant c => rfl
  | Add a b => rfl
  | Mul a b => rfl

/-- On a symbol-free subtree the post-order sweep folds everything to a
single `Constant` holding the subtree's value. -/
theorem simplifyNode_no_symbol [DecidableEq α] [CommRing α]
    {e : Node α} (h : hasSymbol e = false) {k : α}
    (hk : evalDen ([] : List (String × α)) e = some k) :
    simplifyNode e = Node.Constant k := by
  induction e generalizing k with
  | Symbol s => simp [hasSymbol] at h
  | Constant c =>
    have hkc : c = k := by simpa [evalDen] using hk
    subst hkc
    show applyRules (Node.Constant c) = Node.Constant c
    simp [applyRules, rules, mul_identity_rule, add_identity_rule,
      eval_to_const_rule, value_eq_evalDen, evalDen]
  | Add a b iha ihb =>
    simp only [hasSymbol, Bool.or_eq_false_iff] at h
    obtain ⟨ka, hka⟩ := evalDen_nil_isSome_of_no_symbol h.1
    obtain ⟨kb, hkb⟩ := evalDen_nil_isSome_of_no_symbol h.2
    have hsum : ka + kb = k := by
      rw [show evalDen ([] : List (String × α)) (Node.Add a b)
          = some (ka + kb) by simp [evalDen, hka, hkb]] at hk
      injection hk
    show applyRules (Node.Add (simplifyNode a) (simplifyNode b))
      = Node.Constant k
    rw [iha h.1 hka, ihb h.2 hkb, ← hsum]
    by_cases h0 : ka = 0
    · subst h0
      simp [applyRules, rules, mul_identity_rule, add_identity_rule,
        is_const, eval_to_const_rule, value_eq_evalDen, evalDen]
    · by_cases h1 : kb = 0
      · subst h1
        simp [applyRules, rules, mul_identity_rule, add_identity_rule,
          is_const, h0, eval_to_const_rule, value_eq_evalDen, evalDen]
      · simp [applyRules, rules, mul_identity_rule, add_identity_rule,
          is_const, h0, h1, eval_to_const_rule, value_eq_evalDen, evalDen]
  | Mul a b iha ihb =>
    simp only [hasSymbol, Bool.or_eq_false_iff] at h
    obtain ⟨ka, hka⟩ := evalDen_nil_isSome_of_no_symbol h.1
    obtain ⟨kb, hkb⟩ := evalDen_nil_isSome_of_no_symbol h.2
    have hsum : ka * kb = k := by
      rw [show evalDen ([] : List (String × α)) (Node.Mul a b)
          = some (ka * kb) by simp [evalDen, hka, hkb]] at hk
      injection hk
    show applyRules (Node.Mul (simplifyNode a) (simplifyNode b))
      = Node.Constant k
    rw [iha h.1 hka, ihb h.2 hkb, ← hsum]
    by_cases h0 : ka = 1
    · subst h0
      simp [applyRules, rules, mul_identity_rule, add_identity_rule,
        is_const, eval_to_const_rule, value_eq_evalDen, evalDen]
    · by_cases h1 : kb = 1
      · subst h1
        simp [applyRules, rules, mul_identity_rule, add_identity_rule,
          is_const, h0, eval_to_const_rule, value_eq_evalDen, evalDen]
      · simp [applyRules, rules, mul_identity_rule, add_identity_rule,
          is_const, h0, h1, eval_to_const_rule, value_eq_evalDen, evalDen]

/-- C7: `simplify` of any subtree containing no `Symbol` leaves yields a
single `Constant` holding the value of evaluating that subtree with empty
bindings; and the symbol detection really is "attempt the evaluation and
leave the node unchanged on the missing-binding failure", which is the
second conjunct. -/
theorem simplify_constant_folding [DecidableEq α] [CommRing α]
    (e : Node α) (h : hasSymbol e = false) :
    (∃ k, value e ([] : List (String × α)) = some k ∧
      simplify e = some (Node.Constant k)) ∧
    ∀ n : Node α, value n ([] : List (String × α)) = none →
      eval_to_const_rule n = n := by
  constructor
  · obtain ⟨k, hk⟩ := evalDen_nil_isSome_of_no_symbol h
    refine ⟨k, ?_, ?_⟩
    · rw [value_eq_evalDen]
      exact hk
    · rw [simplify_eq_simplifyNode, simplifyNode_no_symbol h hk]
      intro s hs
      rw [hs] at h
      simp [hasSymbol] at h
  · intro n h2
    simp [eval_to_const_rule, h2]

/-- Witness for C7 at the spec's example, the nested sum of five
`Constant(1)` nodes, which folds to a single `Constant(5)`. -/
theorem simplify_constant_folding_witness :
    hasSymbol eFive = false ∧
    ((∃ k, value eFive ([] : List (String × ℤ)) = some k ∧
      simplify eFive = some (Node.Constant k)) ∧
    ∀ n : Node ℤ, value n ([] : List (String × ℤ)) = none →
      eval_to_const_rule n = n) ∧
    simplify eFive = some (Node.Constant 5) :=
  ⟨by decide, simplify_constant_folding eFive (by decide), by decide⟩

/-! ## Normal forms of the rule chain -/

theorem value_symbol_nil [DecidableEq α] [Add α] [Mul α] (s : String) :
    value (Node.Symbol s) ([] : List (String × α)) = none := by
  rw [value_eq_evalDen]
  simp [evalDen, dlookup]

theorem value_const_nil [DecidableEq α] [Add α] [Mul α] (c : α) :
    value (Node.Constant c) ([] : List (String × α)) = some c := by
  rw [value_eq_evalDen]
  simp [evalDen]

theorem eval_to_const_rule_of_normal [DecidableEq α] [Add α] [Mul α]
    [Zero α] [One α] {v : Node α} (h : SimpNormal v) :
    eval_to_const_rule v = v := by
  cases v with
  | Symbol s => simp [eval_to_const_rule, value_symbol_nil]
  | Constant c => simp [eval_to_const_rule, value_const_nil]
  | Add a b =>
    obtain ⟨-, -, -, -, hval⟩ := h
    simp [eval_to_const_rule, hval]
  | Mul a b =>
    obtain ⟨-, -, -, -, hval⟩ := h
    simp [eval_to_const_rule, hval]

theorem add_identity_rule_of_normal [DecidableEq α] [Add α] [Mul α]
    [Zero α] [One α] {v : Node α} (h : SimpNormal v) :
    add_identity_rule v = v := by
  cases v with
  | Symbol s => rfl
  | Constant c => rfl
  | Add a b =>
    obtain ⟨-, -, h0, h1, -⟩ := h
    simp [add_identity_rule, h0, h1]
  | Mul a b => rfl

theorem mul_identity_rule_of_normal [DecidableEq α] [Add α] [Mul α]
    [Zero α] [One α] {v : Node α} (h : SimpNormal v) :
    mul_identity_rule v = v := by
  cases v with
  | Symbol s => rfl
  | Constant c => rfl
  | Add a b => rfl
  | Mul a b =>
    obtain ⟨-, -, h0, h1, -⟩ := h
    simp [mul_identity_rule, h0, h1]

theorem SimpNormal_applyRules_add [DecidableEq α] [Add α] [Mul α] [Zero α]
    [One α] {u v : Node α} (hu : SimpNormal u) (hv : SimpNormal v) :
    SimpNormal (applyRules (Node.Add u v)) := by
  show SimpNormal (eval_to_const_rule (add_identity_rule
    (mul_identity_rule (Node.Add u v))))
  rw [show mul_identity_rule (Node.Add u v) = Node.Add u v from rfl]
  by_cases h0 : is_const u 0 = true
  · rw [show add_identity_rule (Node.Add u v) = v by
      simp [add_identity_rule, h0]]
    cases hval : value v ([] : List (String × α)) with
    | some k => simp [eval_to_const_rule, hval, SimpNormal]
    | none =>
      rw [eval_to_const_rule_of_normal hv]
      exact hv
  · by_cases h1 : is_const v 0 = true
    · rw [show add_identity_rule (Node.Add u v) = u by
        simp [add_identity_rule, h0, h1]]
      cases hval : value u ([] : List (String × α)) with
      | some k => simp [eval_to_const_rule, hval, SimpNormal]
      | none =>
        rw [eval_to_const_rule_of_normal hu]
        exact hu
    · rw [show add_identity_rule (Node.Add u v) = Node.Add u v by
        simp [add_identity_rule, h0, h1]]
      cases hval : value (Node.Add u v) ([] : List (String × α)) with
      | some k => simp [eval_to_const_rule, hval, SimpNormal]
      | none =>
        rw [show eval_to_const_rule (Node.Add u v) = Node.Add u v by
          simp [eval_to_const_rule, hval]]
        exact ⟨hu, hv, by simpa using h0, by simpa using h1, hval⟩

theorem SimpNormal_applyRules_mul [DecidableEq α] [Add α] [Mul α] [Zero α]
    [One α] {u v : Node α} (hu : SimpNormal u) (hv : SimpNormal v) :
    SimpNormal (applyRules (Node.Mul u v)) := by
  show SimpNormal (eval_to_const_rule (add_identity_rule
    (mul_identity_rule (Node.Mul u v))))
  by_cases h0 : is_const u 1 = true
  · rw [show mul_identity_rule (Node.Mul u v) = v by
      simp [mul_identity_rule, h0]]
    rw [add_identity_rule_of_normal hv]
    cases hval : value v ([] : List (String × α)) with
    | some k => simp [eval_to_const_rule, hval, SimpNormal]
    | none =>
      rw [eval_to_const_rule_of_normal hv]
      exact hv
  · by_cases h1 : is_const v 1 = true
    · rw [show mul_identity_rule (Node.Mul u v) = u by
        simp [mul_identity_rule, h0, h1]]
      rw [add_identity_rule_of_normal hu]
      cases hval : value u ([] : List (String × α)) with
      | some k => simp [eval_to_const_rule, hval, SimpNormal]
      | none =>
        rw [eval_to_const_rule_of_normal hu]
        exact hu
    · rw [show mul_identity_rule (Node.Mul u v) = Node.Mul u v by
        simp [mul_identity_rule, h0, h1]]
      rw [show add_identity_rule (Node.Mul u v) = Node.Mul u v from rfl]
      cases hval : value (Node.Mul u v) ([] : List (String × α)) with
      | some k => simp [eval_to_const_rule, hval, SimpNormal]
      | none =>
        rw [show eval_to_const_rule (Node.Mul u v) = Node.Mul u v by
          simp [eval_to_const_rule, hval]]
        exact ⟨hu, hv, by simpa using h0, by simpa using h1, hval⟩

/-- Every output of the per-node sweep is in normal form. -/
theorem SimpNormal_simplifyNode [DecidableEq α] [Add α] [Mul α] [Zero α]
    [One α] (e : Node α) : SimpNormal (simplifyNode e) := by
  induction e with
  | Symbol s => trivial
  | Constant c =>
    show SimpNormal (applyRules (Node.Constant c))
    rw [show applyRules (Node.Constant c) = Node.Constant c by
      simp [applyRules, rules, mul_identity_rule, add_identity_rule,
        eval_to_const_rule, value_const_nil]]
    trivial
  | Add a b iha ihb => exact SimpNormal_applyRules_add iha ihb
  | Mul a b iha ihb => exact SimpNormal_applyRules_mul iha ihb

theorem simplifyNode_of_normal [DecidableEq α] [Add α] [Mul α] [Zero α]
    [One α] {e : Node α} (h : SimpNormal e) : simplifyNode e = e := by
  induction e with
  | Symbol s => rfl
  | Constant c =>
    show applyRules (Node.Constant c) = Node.Constant c
    simp [applyRules, rules, mul_identity_rule, add_identity_rule,
      eval_to_const_rule, value_const_nil]
  | Add a b iha ihb =>
    obtain ⟨hu, hv, h0, h1, hval⟩ := h
    have hN : SimpNormal (Node.Add a b) := ⟨hu, hv, h0, h1, hval⟩
    show applyRules (Node.Add (simplifyNode a) (simplifyNode b))
      = Node.Add a b
    rw [iha hu, ihb hv]
    show eval_to_const_rule (add_identity_rule
      (mul_identity_rule (Node.Add a b))) = Node.Add a b
    rw [show mul_identity_rule (Node.Add a b) = Node.Add a b from rfl,
      add_identity_rule_of_normal hN, eval_to_const_rule_of_normal hN]
  | Mul a b iha ihb =>
    obtain ⟨hu, hv, h0, h1, hval⟩ := h
    have hN : SimpNormal (Node.Mul a b) := ⟨hu, hv, h0, h1, hval⟩
    show applyRules (Node.Mul (simplifyNode a) (simplifyNode b))
      = Node.Mul a b
    rw [iha hu, ihb hv]
    show eval_to_const_rule (add_identity_rule
      (mul_identity_rule (Node.Mul a b))) = Node.Mul a b
    rw [mul_identity_rule_of_normal hN, add_identity_rule_of_normal hN,
      eval_to_const_rule_of_normal hN]

/-- The intended idempotence of the per-node sweep does hold structurally:
re-simplifying any sweep output returns it unchanged.  (The full
`simplify(simplify(e)) == simplify(e)` property fails only through the
`KeyError` on bare-`Symbol` roots.) -/
theorem simplifyNode_idempotent [DecidableEq α] [Add α] [Mul α] [Zero α]
    [One α] (e : Node α) :
    simplifyNode (simplifyNode e) = simplifyNode e :=
  simplifyNode_of_normal (SimpNormal_simplifyNode e)

theorem right_ne_add (u v : Node α) : v ≠ Node.Add u v := by
  intro h
  have h2 := congrArg Node.size h
  simp only [Node.size] at h2
  omega

theorem left_ne_add (u v : Node α) : u ≠ Node.Add u v := by
  intro h
  have h2 := congrArg Node.size h
  simp only [Node.size] at h2
  omega

theorem right_ne_mul (u v : Node α) : v ≠ Node.Mul u v := by
  intro h
  have h2 := congrArg Node.size h
  simp only [Node.size] at h2
  omega

theorem left_ne_mul (u v : Node α) : u ≠ Node.Mul u v := by
  intro h
  have h2 := congrArg Node.size h
  simp only [Node.size] at h2
  omega

theorem applyRules_eq_FM_const [DecidableEq α] [Add α] [Mul α] [Zero α]
    [One α] (c : α) :
    applyRules (Node.Constant c) = applyRulesFM (Node.Constant c) := by
  show eval_to_const_rule (add_identity_rule
    (mul_identity_rule (Node.Constant c))) = _
  simp [applyRulesFM, mul_identity_rule, add_identity_rule]

theorem applyRules_eq_FM_add [DecidableEq α] [Add α] [Mul α] [Zero α]
    [One α] {u v : Node α} (hu : SimpNormal u) (hv : SimpNormal v) :
    applyRules (Node.Add u v) = applyRulesFM (Node.Add u v) := by
  have hm : mul_identity_rule (Node.Add u v) = Node.Add u v := rfl
  by_cases h0 : is_const u 0 = true
  · have hai : add_identity_rule (Node.Add u v) = v := by
      simp [add_identity_rule, h0]
    have hne : v ≠ Node.Add u v := right_ne_add u v
    show eval_to_const_rule (add_identity_rule
      (mul_identity_rule (Node.Add u v))) = _
    rw [hm, hai, eval_to_const_rule_of_normal hv]
    simp [applyRulesFM, hm, hai, hne]
  · by_cases h1 : is_const v 0 = true
    · have hai : add_identity_rule (Node.Add u v) = u := by
        simp [add_identity_rule, h0, h1]
      have hne : u ≠ Node.Add u v := left_ne_add u v
      show eval_to_const_rule (add_identity_rule
        (mul_identity_rule (Node.Add u v))) = _
      rw [hm, hai, eval_to_const_rule_of_normal hu]
      simp [applyRulesFM, hm, hai, hne]
    · have hai : add_identity_rule (Node.Add u v) = Node.Add u v := by
        simp [add_identity_rule, h0, h1]
      show eval_to_const_rule (add_identity_rule
        (mul_identity_rule (Node.Add u v))) = _
      rw [hm, hai]
      simp [applyRulesFM, hm, hai]

theorem applyRules_eq_FM_mul [DecidableEq α] [Add α] [Mul α] [Zero α]
    [One α] {u v : Node α} (hu : SimpNormal u) (hv : SimpNormal v) :
    applyRules (Node.Mul u v) = applyRulesFM (Node.Mul u v) := by
  by_cases h0 : is_const u 1 = true
  · have hm : mul_identity_rule (Node.Mul u v) = v := by
      simp [mul_identity_rule, h0]
    have hne : v ≠ Node.Mul u v := right_ne_mul u v
    show eval_to_const_rule (add_identity_rule
      (mul_identity_rule (Node.Mul u v))) = _
    rw [hm, add_identity_rule_of_normal hv, eval_to_const_rule_of_normal hv]
    simp [applyRulesFM, hm, hne]
  · by_cases h1 : is_const v 1 = true
    · have hm : mul_identity_rule (Node.Mul u v) = u := by
        simp [mul_identity_rule, h0, h1]
      have hne : u ≠ Node.Mul u v := left_ne_mul u v
      show eval_to_const_rule (add_identity_rule
        (mul_identity_rule (Node.Mul u v))) = _
      rw [hm, add_identity_rule_of_normal hu,
        eval_to_const_rule_of_normal hu]
      simp [applyRulesFM, hm, hne]
    · have hm : mul_identity_rule (Node.Mul u v) = Node.Mul u v := by
        simp [mul_identity_rule, h0, h1]
      have hai : add_identity_rule (Node.Mul u v) = Node.Mul u v := rfl
      show eval_to_const_rule (add_identity_rule
        (mul_identity_rule (Node.Mul u v))) = _
      rw [hm, hai]
      simp [applyRulesFM, hm, hai]

/-- Structurally (as trees) the source's rule chain computes the same
sweep as the spec's at-most-one-rule-per-visit application. -/
theorem simplifyNode_eq_simplifyFMNode [DecidableEq α] [Add α] [Mul α]
    [Zero α] [One α] (e : Node α) : simplifyNode e = simplifyFMNode e := by
  induction e with
  | Symbol s => rfl
  | Constant c => exact applyRules_eq_FM_const c
  | Add a b iha ihb =>
    show applyRules (Node.Add (simplifyNode a) (simplifyNode b))
      = applyRulesFM (Node.Add (simplifyFMNode a) (simplifyFMNode b))
    rw [← iha, ← ihb]
    exact applyRules_eq_FM_add (SimpNormal_simplifyNode a)
      (SimpNormal_simplifyNode b)
  | Mul a b iha ihb =>
    show applyRules (Node.Mul (simplifyNode a) (simplifyNode b))
      = applyRulesFM (Node.Mul (simplifyFMNode a) (simplifyFMNode b))
    rw [← iha, ← ihb]
    exact applyRules_eq_FM_mul (SimpNormal_simplifyNode a)
      (SimpNormal_simplifyNode b)

/-- C8 (amended): during one `simplify` pass the registered rules are
applied as a chain — every rule runs in registration order, each receiving
the previous rule's output, so a later rule can rewrite a replacement
again (object-level counterexample on the heap model below) — but the
structural, tree-level result of each visit coincides with applying at
most one rule per visit. -/
theorem simplify_rule_chaining [DecidableEq α] [Add α] [Mul α] [Zero α]
    [One α] :
    (∀ nc : Node α, applyRules nc
      = eval_to_const_rule (add_identity_rule (mul_identity_rule nc))) ∧
    ∀ e : Node α, simplifyNode e = simplifyFMNode e :=
  ⟨fun _ => rfl, simplifyNode_eq_simplifyFMNode⟩

/-! ## Heap-level theorems: mutation and rule chaining -/

/-- C3 (evaluation at the failing input): running `simplify` on the heap
holding `mul(x, constant(1))` (objects 0 = `x`, 1 = `Constant(1)`,
2 = the `Mul`) returns the Symbol (object 0) but *mutates the input*: the
`Mul` node's children list changes from `[0, 1]` to `[0, 4]`, where 4 is
the fresh `Constant(1)` allocated by constant folding for the original
child — `copy.copy` shares the children list, so the rebuild loop writes
through to the original node. -/
theorem simplify_mutates_input_children :
    hChildren heapC3 2 = [0, 1] ∧
    ∃ st, heapSimplify 32 heapC3 2 = some (st, 0) ∧
      hChildren st.heap 2 = [0, 4] ∧
      st.heap.objs.getD 4 ⟨.hadd, 0⟩ = ⟨.hconst 1, 3⟩ ∧
      (4 : Nat) ≠ 1 := by
  exact ⟨rfl, ⟨_, rfl, rfl, rfl, by decide⟩⟩

/-- C8 (counterexample): on `mul(constant(2), constant(1))` the visited
rebuilt node is object 7; `mul_identity_rule` rewrites it to object 4 (the
simplified first child), yet the code's `simplify` stores object 8 — a
`Constant(2)` freshly allocated by `eval_to_const_rule` *after* that first
rewrite — while the at-most-one-rule-per-visit run stores object 4 and
allocates one object fewer.  So a node is rewritten by two rules in one
visit, refuting the claim as stated (at the object-identity level the data
model prescribes for `Constant` nodes). -/
theorem simplify_applies_later_rules :
    ∃ st st', heapSimplify 32 heapC8 2 = some (st, 8) ∧
      heapSimplifyFM 32 heapC8 2 = some (st', 4) ∧
      hMulIdentityRule st.heap 7 = 4 ∧
      (8 : Nat) ≠ 4 ∧
      (st.heap.objs.getD 8 ⟨.hadd, 0⟩).kind = .hconst 2 ∧
      (st.heap.objs.getD 4 ⟨.hadd, 0⟩).kind = .hconst 2 ∧
      st.heap.objs.length = 9 ∧ st'.heap.objs.length = 8 := by
  exact ⟨_, _, rfl, rfl, rfl, by decide, rfl, rfl, rfl, rfl⟩

/-! ## Not-a-number propagation -/

theorem NFloat.nan_add (w : NFloat) : NFloat.nan + w = NFloat.nan := by
  cases w <;> rfl

theorem NFloat.add_nan (w : NFloat) : w + NFloat.nan = NFloat.nan := by
  cases w <;> rfl

theorem NFloat.nan_mul (w : NFloat) : NFloat.nan * w = NFloat.nan := by
  cases w <;> rfl

theorem NFloat.mul_nan (w : NFloat) : w * NFloat.nan = NFloat.nan := by
  cases w <;> rfl

/-- C9: over the not-a-number-carrying scalar domain, an `Add`/`Mul` value
or local-gradient computation never fails on a not-a-number operand — it
yields `some` of the marker, which is absorbing for both arithmetic
combinators — and a whole `numeric_gradient` traversal with a `nan`
binding still succeeds, with the unaffected symbol's derivative fully
computed (`d[y] = 6`) alongside the undefined one (`d[x] = nan`). -/
theorem nan_propagation :
    (∀ (a b : Node NFloat) (vm : List (Node NFloat × NFloat)) (w : NFloat),
      dlookup vm a = some NFloat.nan → dlookup vm b = some w →
        compute_value (Node.Add a b) vm = some NFloat.nan ∧
        compute_value (Node.Mul a b) vm = some NFloat.nan ∧
        compute_gradient (Node.Mul a b) vm = some [w, NFloat.nan]) ∧
    (∀ w : NFloat, NFloat.nan + w = NFloat.nan ∧
      w + NFloat.nan = NFloat.nan ∧ NFloat.nan * w = NFloat.nan ∧
      w * NFloat.nan = NFloat.nan) ∧
    ∃ d, numeric_gradient eNaN bNaN = some d ∧
      dlookup d (Node.Symbol "x") = some NFloat.nan ∧
      dlookup d (Node.Symbol "y") = some (NFloat.num 6) := by
  refine ⟨?_, ?_, ?_⟩
  · intro a b vm w h1 h2
    refine ⟨?_, ?_, ?_⟩
    · simp [compute_value, h1, h2, NFloat.nan_add]
    · simp [compute_value, h1, h2, NFloat.nan_mul]
    · simp [compute_gradient, h1, h2]
  · intro w
    exact ⟨NFloat.nan_add w, NFloat.add_nan w, NFloat.nan_mul w,
      NFloat.mul_nan w⟩
  · refine ⟨[(eNaN, NFloat.num 1),
      (Node.Mul (.Symbol "x") (.Symbol "x"), NFloat.num 1),
      (Node.Mul (.Symbol "y") (.Symbol "y"), NFloat.num 1),
      (Node.Symbol "x", NFloat.nan), (Node.Symbol "y", NFloat.num 6)],
      ?_, by decide, by decide⟩
    simp [numeric_gradient, eNaN, bNaN, values, postorder, valuesAux,
      dlookup, compute_value, gradLoopN, compute_gradient, Node.children,
      dAddNum, sym_add, sym_mul]
    decide

/-- Witness for the conditional part of the propagation claim, at a value
dict binding `x` to the marker and `y` to 3. -/
theorem nan_propagation_witness :
    dlookup [((Node.Symbol "x" : Node NFloat), NFloat.nan),
      (Node.Symbol "y", NFloat.num 3)] (Node.Symbol "x")
        = some NFloat.nan ∧
    dlookup [((Node.Symbol "x" : Node NFloat), NFloat.nan),
      (Node.Symbol "y", NFloat.num 3)] (Node.Symbol "y")
        = some (NFloat.num 3) ∧
    (compute_value (Node.Add (.Symbol "x") (.Symbol "y"))
      [((Node.Symbol "x" : Node NFloat), NFloat.nan),
        (Node.Symbol "y", NFloat.num 3)] = some NFloat.nan ∧
     compute_value (Node.Mul (.Symbol "x") (.Symbol "y"))
      [((Node.Symbol "x" : Node NFloat), NFloat.nan),
        (Node.Symbol "y", NFloat.num 3)] = some NFloat.nan ∧
     compute_gradient (Node.Mul (.Symbol "x") (.Symbol "y"))
      [((Node.Symbol "x" : Node NFloat), NFloat.nan),
        (Node.Symbol "y", NFloat.num 3)]
        = some [NFloat.num 3, NFloat.nan]) :=
  ⟨by decide, by decide,
    nan_propagation.1 (.Symbol "x") (.Symbol "y") _ (NFloat.num 3)
      (by decide) (by decide)⟩

/-! ## Frame property of the evaluator state -/

theorem valuesLoop_fargs (ns : List (Node ℤ)) :
    ∀ st st', valuesLoop ns st = some st' → st'.fargs = st.fargs := by
  induction ns with
  | nil =>
    intro st st' h
    simp only [valuesLoop] at h
    injection h with h2
    rw [← h2]
  | cons n rest ih =>
    intro st st' h
    simp only [valuesLoop] at h
    by_cases hl : (dlookup st.v n).isSome
    · rw [if_pos hl] at h
      exact ih st st' h
    · rw [if_neg hl] at h
      cases hc : compute_value n st.v with
      | some k =>
        rw [hc] at h
        dsimp only at h
        exact ih { st with v := st.v ++ [(n, k)] } st' h
      | none =>
        rw [hc] at h
        dsimp only at h
        cases h

/-- C10: with the caller's bindings dict and the local dicts as explicit
state, `values` (the engine of `evaluate`) and `numeric_gradient` return a
state whose bindings component is the caller's dict unchanged — the
evaluator copies the bindings into its fresh value dict and writes only
that dict, and the gradient accumulator is a separate fresh dict. -/
theorem bindings_frame (f : Node ℤ) (st : EvalSt) :
    (∀ st1, valuesSt f st = some st1 → st1.fargs = st.fargs) ∧
    (∀ st1 d, numeric_gradient_st f st = some (st1, d) →
      st1.fargs = st.fargs) := by
  constructor
  · intro st1 h
    unfold valuesSt at h
    exact valuesLoop_fargs _ { st with v := [] ++ st.fargs } st1 h
  · intro st1 d h
    simp only [numeric_gradient_st] at h
    cases hv : valuesSt f st with
    | none =>
      rw [hv] at h
      dsimp only at h
      cases h
    | some st2 =>
      rw [hv] at h
      dsimp only at h
      cases hg : gradLoopN st2.v [] [(f, 1)] with
      | none =>
        rw [hg] at h
        dsimp only at h
        cases h
      | some d2 =>
        rw [hg] at h
        dsimp only at h
        injection h with h2
        have h3 : st2 = st1 := congrArg Prod.fst h2
        rw [← h3]
        unfold valuesSt at hv
        exact valuesLoop_fargs _ { st with v := [] ++ st.fargs } st2 hv

/-- Witness for C10 at `f = (x + y) * x` and bindings `{x: 2, y: 3}`. -/
theorem bindings_frame_witness :
    ∃ st1, valuesSt fEx stEx = some st1 ∧ st1.fargs = stEx.fargs :=
  ⟨_, rfl, (bindings_frame fEx stEx).1 _ rfl⟩
